import Mathlib

/-!
Shallow embedding of `src/main.rs` (a toy GHOSTDAG-style blockDAG, `ToyDag`)
together with proofs about its operations.

Modelling conventions:
* `HashMap<u64, Block>` is an association list `List (Nat × Block)`.  The
  source only ever inserts under the fresh key `next_id`, so `HashMap::insert`
  is consing.  The `HashSet<u64>` of tips is a duplicate-free `List Nat` with
  set-semantics insert and remove (`tipsInsert`, `List.erase`); the result
  `HashSet`s of the two reachability queries are `Finset Nat`.
* Hash-iteration orders are unspecified in the source; the embedding fixes
  them (the block list and the tip list are scanned in list order).  All
  set-valued results are order independent; `max_by_key` ties were already
  unspecified in the source.
* A Rust panic (the `assert!` in `create_block` and the unchecked
  `self.blocks[&id]` index in `past_set` / `update_selected_parent`) is
  modelled by `Option`, with `none` for the panic.
* The two worklist loops (`future_set`, `past_set`) carry explicit fuel
  `2 * blocks.length + 2`.  This is an upper bound on the number of loop
  iterations the Rust loops can perform before terminating or hitting the
  unchecked index (each pushed id was freshly inserted into the visited set,
  and on a run that does not hit the unchecked index every inserted id is a
  key of the block map), so exhausting the fuel is unreachable whenever the
  Rust loop would have produced a value; sufficiency is proved below
  (`pastSetAux_some`, `futureSetAux_closed`).
* `anticone_size` computes `count() - 1` on `usize`; the subtraction is
  modelled by truncated `Nat` subtraction.  At the only call site the set
  difference always contains the candidate id, so no underflow occurs.
-/

namespace Toy

/-- `const K: usize = 15` -/
def K : Nat := 15

/-- `const STITCH_THRESHOLD: usize = 10` -/
def STITCH_THRESHOLD : Nat := 10

/-- `enum Color { Blue, Red }`; the spec calls these Accepted / Rejected. -/
inductive Color where
  | Blue
  | Red
deriving DecidableEq, Repr

/-- `struct Block { id, parents, color }` -/
structure Block where
  id : Nat
  parents : List Nat
  color : Color
deriving DecidableEq, Repr

/-- `struct ToyDag { blocks, tips, next_id, selected_parent }` -/
structure ToyDag where
  blocks : List (Nat × Block)
  tips : List Nat
  next_id : Nat
  selected_parent : Nat
deriving DecidableEq, Repr

/-- `HashMap` lookup, `self.blocks.get(&i)`. -/
def lookupBlock : List (Nat × Block) → Nat → Option Block
  | [], _ => none
  | (k, b) :: rest, i => if i = k then some b else lookupBlock rest i

/-- The key set of the block map. -/
def keysOf (bs : List (Nat × Block)) : Finset Nat :=
  (bs.map Prod.fst).toFinset

/-- `ToyDag::new` -/
def ToyDag.new : ToyDag :=
  { blocks := [(0, { id := 0, parents := [], color := Color.Blue })]
    tips := [0]
    next_id := 1
    selected_parent := 0 }

/-- The inner `for (&child_id, child) in &self.blocks` loop of
`future_set`: push every not-yet-visited block having `current` as a
parent. -/
def futureScan (current : Nat) :
    List (Nat × Block) → Finset Nat → List Nat → Finset Nat × List Nat
  | [], future, queue => (future, queue)
  | (child_id, child) :: rest, future, queue =>
    if current ∈ child.parents ∧ child_id ∉ future then
      futureScan current rest (insert child_id future) (child_id :: queue)
    else
      futureScan current rest future queue

/-- The `while let Some(current) = queue.pop()` loop of `future_set`,
with explicit fuel (see the header comment). -/
def futureSetAux (bs : List (Nat × Block)) : Nat → Finset Nat → List Nat → Finset Nat
  | 0, future, _ => future
  | fuel + 1, future, queue =>
    match queue with
    | [] => future
    | current :: rest =>
      let st := futureScan current bs future rest
      futureSetAux bs fuel st.1 st.2

/-- Fuel bound for the two worklist loops. -/
def dagFuel (bs : List (Nat × Block)) : Nat :=
  2 * bs.length + 2

/-- `ToyDag::future_set` -/
def ToyDag.future_set (dag : ToyDag) (block_id : Nat) : Finset Nat :=
  futureSetAux dag.blocks (dagFuel dag.blocks) {block_id} [block_id]

/-- `ToyDag::anticone_size` (truncated subtraction models `- 1` on `usize`). -/
def ToyDag.anticone_size (dag : ToyDag) (block_id reference_id : Nat) : Nat :=
  ((dag.future_set block_id) \ (dag.future_set reference_id)).card - 1

/-- The inner `for &parent in &self.blocks[&current].parents` loop of
`past_set`: push every parent not yet in `past`. -/
def pastEnqueue : List Nat → Finset Nat → List Nat → Finset Nat × List Nat
  | [], past, queue => (past, queue)
  | p :: ps, past, queue =>
    if p ∈ past then pastEnqueue ps past queue
    else pastEnqueue ps (insert p past) (p :: queue)

/-- The `while` loop of `past_set`.  The unchecked index
`self.blocks[&current]` is the `none` branch of the lookup. -/
def pastSetAux (bs : List (Nat × Block)) : Nat → Finset Nat → List Nat → Option (Finset Nat)
  | 0, _, _ => none
  | fuel + 1, past, queue =>
    match queue with
    | [] => some past
    | current :: rest =>
      match lookupBlock bs current with
      | none => none
      | some b =>
        let st := pastEnqueue b.parents past rest
        pastSetAux bs fuel st.1 st.2

/-- `ToyDag::past_set`; `none` is the unchecked-index panic. -/
def ToyDag.past_set (dag : ToyDag) (block_id : Nat) : Option (Finset Nat) :=
  pastSetAux dag.blocks (dagFuel dag.blocks) {block_id} [block_id]

/-- The `filter`/`collect` producing `blue_tips` in `update_selected_parent`;
`self.blocks[&t]` is unchecked, hence the `Option`. -/
def blueFilter (bs : List (Nat × Block)) : List Nat → Option (List Nat)
  | [] => some []
  | t :: ts =>
    match lookupBlock bs t with
    | none => none
    | some b =>
      match blueFilter bs ts with
      | none => none
      | some rest => some (if b.color = Color.Blue then t :: rest else rest)

/-- The keys `self.past_set(t).len()` computed by `max_by_key`, paired with
their tips. -/
def keyedPast (dag : ToyDag) : List Nat → Option (List (Nat × Nat))
  | [] => some []
  | t :: ts =>
    match dag.past_set t with
    | none => none
    | some s =>
      match keyedPast dag ts with
      | none => none
      | some rest => some ((t, s.card) :: rest)

/-- `Iterator::max_by_key` fold (keeps the later element on ties). -/
def maxByKeyAux : Nat × Nat → List (Nat × Nat) → Nat × Nat
  | best, [] => best
  | best, x :: rest => maxByKeyAux (if best.2 ≤ x.2 then x else best) rest

/-- `Iterator::max_by_key` on a keyed list. -/
def maxByKeyList : List (Nat × Nat) → Option Nat
  | [] => none
  | x :: rest => some (maxByKeyAux x rest).1

/-- `ToyDag::update_selected_parent` -/
def ToyDag.update_selected_parent (dag : ToyDag) : Option ToyDag :=
  match blueFilter dag.blocks dag.tips with
  | none => none
  | some blue_tips =>
    match keyedPast dag blue_tips with
    | none => none
    | some kt =>
      match maxByKeyList kt with
      | none => some dag
      | some best => some { dag with selected_parent := best }

/-- `HashSet::insert` on the tip set: no-op when already present. -/
def tipsInsert (tips : List Nat) (id : Nat) : List Nat :=
  if id ∈ tips then tips else id :: tips

/-- The `for &pid in &parent_ids` tip-eviction loop of `create_block`
(`self.tips.len() > 1 || !self.tips.contains(&pid)` guards the removal). -/
def updateTips : List Nat → List Nat → List Nat
  | tips, [] => tips
  | tips, pid :: rest =>
    updateTips (if 1 < tips.length ∨ pid ∉ tips then tips.erase pid else tips) rest

/-- `ToyDag::create_block`; `none` is a panic (the `assert!` on an empty
parent list, or the unchecked index reached through
`update_selected_parent`). -/
def ToyDag.create_block (dag : ToyDag) (parent_ids : List Nat) : Option (Nat × ToyDag) :=
  if parent_ids.isEmpty then none
  else
    let id := dag.next_id
    let dag1 : ToyDag := { dag with next_id := dag.next_id + 1 }
    let color := if dag1.anticone_size id dag1.selected_parent ≤ K then Color.Blue else Color.Red
    let block : Block := { id := id, parents := parent_ids, color := color }
    let dag2 : ToyDag := { dag1 with blocks := (id, block) :: dag1.blocks }
    let dag3 : ToyDag := { dag2 with tips := tipsInsert (updateTips dag2.tips parent_ids) id }
    match dag3.update_selected_parent with
    | none => none
    | some dag4 => some (id, dag4)

/-- `ToyDag::stitch_if_needed` with the threshold abstracted (the source
inlines the constant `STITCH_THRESHOLD`; the spec interface `maybeStitch`
takes the threshold as an argument).  The first component of the result is
the merge block id bound by the source when it stitches. -/
def ToyDag.stitch_if_needed_at (dag : ToyDag) (threshold : Nat) : Option (Option Nat × ToyDag) :=
  if threshold < dag.tips.length then
    match dag.create_block dag.tips with
    | none => none
    | some (merge_block_id, dag') => some (some merge_block_id, dag')
  else
    some (none, dag)

/-- `ToyDag::stitch_if_needed` as in the source. -/
def ToyDag.stitch_if_needed (dag : ToyDag) : Option (Option Nat × ToyDag) :=
  dag.stitch_if_needed_at STITCH_THRESHOLD

/-- Well-formedness of a DAG state: all recorded ids are below the id
counter, parent links stay inside the store, tips and the selected parent
are recorded, and the most recently allocated id `next_id - 1` is recorded. -/
def WF (dag : ToyDag) : Prop :=
  (∀ pb ∈ dag.blocks, pb.1 < dag.next_id) ∧
  (∀ pb ∈ dag.blocks, ∀ p ∈ pb.2.parents, p ∈ keysOf dag.blocks) ∧
  (∀ t ∈ dag.tips, t ∈ keysOf dag.blocks) ∧
  dag.tips.Nodup ∧
  dag.selected_parent ∈ keysOf dag.blocks ∧
  dag.next_id - 1 ∈ keysOf dag.blocks

instance (dag : ToyDag) : Decidable (WF dag) := by
  unfold WF
  infer_instance

/-- States reachable from `ToyDag::new` through the public operations. -/
inductive Reachable : ToyDag → Prop
  | base : Reachable ToyDag.new
  | step_insert {d : ToyDag} {ps : List Nat} {id : Nat} {d' : ToyDag} :
      Reachable d → d.create_block ps = some (id, d') → Reachable d'
  | step_stitch {d : ToyDag} {r : Option Nat} {d' : ToyDag} :
      Reachable d → d.stitch_if_needed = some (r, d') → Reachable d'

/-- The color the source computes for the candidate block. -/
def candidateColor (dag : ToyDag) : Color :=
  if dag.anticone_size dag.next_id dag.selected_parent ≤ K then Color.Blue else Color.Red

/-- The candidate block record inserted by `create_block`. -/
def candidateBlock (dag : ToyDag) (ps : List Nat) : Block :=
  { id := dag.next_id, parents := ps, color := candidateColor dag }

/-- The intermediate state of `create_block` just before the selected
parent is recomputed: block recorded, tips updated, id counter bumped. -/
def insertState (dag : ToyDag) (ps : List Nat) : ToyDag :=
  { blocks := (dag.next_id, candidateBlock dag ps) :: dag.blocks
    tips := tipsInsert (updateTips dag.tips ps) dag.next_id
    next_id := dag.next_id + 1
    selected_parent := dag.selected_parent }

/-- A tip whose recorded color is Blue (spec: an Accepted tip). -/
def BlueTip (dag : ToyDag) (t : Nat) : Prop :=
  ∃ b, lookupBlock dag.blocks t = some b ∧ b.color = Color.Blue

/-- The state produced by inserting a block with parent list `[0]` into a
fresh DAG (used as a concrete test state below). -/
def D1val : ToyDag :=
  { blocks := [(1, { id := 1, parents := [0], color := Color.Blue }),
               (0, { id := 0, parents := [], color := Color.Blue })]
    tips := [1, 0]
    next_id := 2
    selected_parent := 1 }

/-! ### Basic lemmas about the block map -/

theorem lookupBlock_mem {bs : List (Nat × Block)} {i : Nat} {b : Block}
    (h : lookupBlock bs i = some b) : (i, b) ∈ bs := by
  induction bs with
  | nil => simp [lookupBlock] at h
  | cons hd tl ih =>
    obtain ⟨k, bb⟩ := hd
    by_cases hik : i = k
    · subst hik
      simp only [lookupBlock, if_true, eq_self_iff_true, Option.some.injEq] at h
      subst h
      exact List.mem_cons_self _ _
    · simp only [lookupBlock, if_neg hik] at h
      exact List.mem_cons_of_mem _ (ih h)

theorem mem_keysOf {bs : List (Nat × Block)} {k : Nat} :
    k ∈ keysOf bs ↔ ∃ b, (k, b) ∈ bs := by
  simp only [keysOf, List.mem_toFinset, List.mem_map]
  constructor
  · rintro ⟨⟨a, b⟩, hmem, rfl⟩
    exact ⟨b, hmem⟩
  · rintro ⟨b, hb⟩
    exact ⟨(k, b), hb, rfl⟩

theorem keysOf_cons {k : Nat} {b : Block} {tl : List (Nat × Block)} :
    keysOf ((k, b) :: tl) = insert k (keysOf tl) := by
  simp [keysOf]

theorem lookupBlock_isSome_of_mem_keys {bs : List (Nat × Block)} {i : Nat}
    (h : i ∈ keysOf bs) : ∃ b, lookupBlock bs i = some b := by
  induction bs with
  | nil => simp [keysOf] at h
  | cons hd tl ih =>
    obtain ⟨k, bb⟩ := hd
    by_cases hik : i = k
    · exact ⟨bb, by simp [lookupBlock, hik]⟩
    · rw [keysOf_cons, Finset.mem_insert] at h
      rcases h with h | h
      · exact absurd h hik
      · obtain ⟨b, hb⟩ := ih h
        exact ⟨b, by simp [lookupBlock, hik, hb]⟩

theorem mem_keys_of_lookup {bs : List (Nat × Block)} {i : Nat} {b : Block}
    (h : lookupBlock bs i = some b) : i ∈ keysOf bs :=
  mem_keysOf.mpr ⟨b, lookupBlock_mem h⟩

theorem card_keysOf_le (bs : List (Nat × Block)) : (keysOf bs).card ≤ bs.length := by
  calc (keysOf bs).card ≤ (bs.map Prod.fst).length := List.toFinset_card_le _
    _ = bs.length := List.length_map _ _

/-- Counting helper for the worklist measure: growing the visited set by
elements of `U` shrinks `U \ visited` by exactly the growth. -/
theorem card_sdiff_grow (U : Finset Nat) {f g : Finset Nat}
    (hsub : f ⊆ g) (hnew : g \ f ⊆ U) :
    (U \ f).card = (U \ g).card + (g.card - f.card) := by
  have hdisj : Disjoint (U \ g) (g \ f) := by
    rw [Finset.disjoint_left]
    intro a ha hb
    exact (Finset.mem_sdiff.mp ha).2 (Finset.mem_sdiff.mp hb).1
  have hun : U \ f = (U \ g) ∪ (g \ f) := by
    ext a
    simp only [Finset.mem_sdiff, Finset.mem_union]
    constructor
    · rintro ⟨haU, haf⟩
      by_cases h2 : a ∈ g
      · exact Or.inr ⟨h2, haf⟩
      · exact Or.inl ⟨haU, h2⟩
    · rintro (⟨haU, h2⟩ | hb)
      · exact ⟨haU, fun hf => h2 (hsub hf)⟩
      · exact ⟨hnew (Finset.mem_sdiff.mpr hb), hb.2⟩
  rw [hun, Finset.card_union_of_disjoint hdisj, Finset.card_sdiff hsub]


/-! ### The child scan of `future_set` -/

theorem futureScan_fst_mono (current : Nat) (bs : List (Nat × Block)) :
    ∀ f q, f ⊆ (futureScan current bs f q).1 := by
  induction bs with
  | nil => intro f q; simp [futureScan]
  | cons hd tl ih =>
    intro f q
    obtain ⟨cid, c⟩ := hd
    by_cases hcond : current ∈ c.parents ∧ cid ∉ f
    · simp only [futureScan, if_pos hcond]
      exact (Finset.subset_insert _ _).trans (ih _ _)
    · simp only [futureScan, if_neg hcond]
      exact ih _ _

theorem futureScan_fst_subset (current : Nat) (bs : List (Nat × Block)) :
    ∀ f q, (futureScan current bs f q).1 ⊆ f ∪ keysOf bs := by
  induction bs with
  | nil => intro f q; simp [futureScan]
  | cons hd tl ih =>
    intro f q
    obtain ⟨cid, c⟩ := hd
    rw [keysOf_cons]
    by_cases hcond : current ∈ c.parents ∧ cid ∉ f
    · simp only [futureScan, if_pos hcond]
      refine (ih _ _).trans ?_
      intro a ha
      rcases Finset.mem_union.mp ha with ha | ha
      · rcases Finset.mem_insert.mp ha with rfl | ha
        · exact Finset.mem_union_right _ (Finset.mem_insert_self _ _)
        · exact Finset.mem_union_left _ ha
      · exact Finset.mem_union_right _ (Finset.mem_insert_of_mem ha)
    · simp only [futureScan, if_neg hcond]
      refine (ih _ _).trans ?_
      exact Finset.union_subset_union_right (Finset.subset_insert _ _)

theorem futureScan_snd_suffix (current : Nat) (bs : List (Nat × Block)) :
    ∀ f q, ∃ l, (futureScan current bs f q).2 = l ++ q := by
  induction bs with
  | nil => intro f q; exact ⟨[], by simp [futureScan]⟩
  | cons hd tl ih =>
    intro f q
    obtain ⟨cid, c⟩ := hd
    by_cases hcond : current ∈ c.parents ∧ cid ∉ f
    · simp only [futureScan, if_pos hcond]
      obtain ⟨l, hl⟩ := ih (insert cid f) (cid :: q)
      exact ⟨l ++ [cid], by simp [hl]⟩
    · simp only [futureScan, if_neg hcond]
      exact ih _ _

theorem futureScan_children (current : Nat) (bs : List (Nat × Block)) :
    ∀ f q, ∀ pb ∈ bs, current ∈ pb.2.parents → pb.1 ∈ (futureScan current bs f q).1 := by
  induction bs with
  | nil => intro f q pb hpb; simp at hpb
  | cons hd tl ih =>
    intro f q pb hpb hpar
    obtain ⟨cid, c⟩ := hd
    rcases List.mem_cons.mp hpb with rfl | hpb
    · by_cases hcond : current ∈ c.parents ∧ cid ∉ f
      · simp only [futureScan, if_pos hcond]
        exact futureScan_fst_mono _ _ _ _ (Finset.mem_insert_self _ _)
      · simp only [futureScan, if_neg hcond]
        have hcid : cid ∈ f := by
          by_contra hc
          exact hcond ⟨hpar, hc⟩
        exact futureScan_fst_mono _ _ _ _ hcid
    · by_cases hcond : current ∈ c.parents ∧ cid ∉ f
      · simp only [futureScan, if_pos hcond]
        exact ih _ _ pb hpb hpar
      · simp only [futureScan, if_neg hcond]
        exact ih _ _ pb hpb hpar

theorem futureScan_len (current : Nat) (bs : List (Nat × Block)) :
    ∀ f q, (futureScan current bs f q).2.length + f.card
      = q.length + (futureScan current bs f q).1.card := by
  induction bs with
  | nil => intro f q; simp [futureScan]
  | cons hd tl ih =>
    intro f q
    obtain ⟨cid, c⟩ := hd
    by_cases hcond : current ∈ c.parents ∧ cid ∉ f
    · simp only [futureScan, if_pos hcond]
      have := ih (insert cid f) (cid :: q)
      rw [Finset.card_insert_of_not_mem hcond.2, List.length_cons] at this
      omega
    · simp only [futureScan, if_neg hcond]
      exact ih _ _

theorem futureScan_snd_closed (current : Nat) (bs : List (Nat × Block)) :
    ∀ f q, (∀ x ∈ q, x ∈ f) →
      ∀ x ∈ (futureScan current bs f q).2, x ∈ (futureScan current bs f q).1 := by
  induction bs with
  | nil => intro f q hq; simpa [futureScan] using hq
  | cons hd tl ih =>
    intro f q hq
    obtain ⟨cid, c⟩ := hd
    by_cases hcond : current ∈ c.parents ∧ cid ∉ f
    · simp only [futureScan, if_pos hcond]
      refine ih _ _ ?_
      intro x hx
      rcases List.mem_cons.mp hx with rfl | hx
      · exact Finset.mem_insert_self _ _
      · exact Finset.mem_insert_of_mem (hq x hx)
    · simp only [futureScan, if_neg hcond]
      exact ih _ _ hq

theorem futureScan_fst_cases (current : Nat) (bs : List (Nat × Block)) :
    ∀ f q, ∀ x ∈ (futureScan current bs f q).1,
      x ∈ f ∨ x ∈ (futureScan current bs f q).2 := by
  induction bs with
  | nil => intro f q x hx; exact Or.inl (by simpa [futureScan] using hx)
  | cons hd tl ih =>
    intro f q x hx
    obtain ⟨cid, c⟩ := hd
    by_cases hcond : current ∈ c.parents ∧ cid ∉ f
    · simp only [futureScan, if_pos hcond] at hx ⊢
      rcases ih _ _ x hx with hxf | hxs
      · rcases Finset.mem_insert.mp hxf with rfl | hxf
        · right
          obtain ⟨l, hl⟩ := futureScan_snd_suffix current tl (insert x f) (x :: q)
          rw [hl]
          exact List.mem_append_right _ (List.mem_cons_self _ _)
        · exact Or.inl hxf
      · exact Or.inr hxs
    · simp only [futureScan, if_neg hcond] at hx ⊢
      exact ih _ _ x hx

/-! ### The worklist loop of `future_set` -/

theorem futureSetAux_nil (bs : List (Nat × Block)) (fuel : Nat) (f : Finset Nat) :
    futureSetAux bs fuel f [] = f := by
  cases fuel <;> simp [futureSetAux]

theorem futureSetAux_mono (bs : List (Nat × Block)) :
    ∀ fuel f q, f ⊆ futureSetAux bs fuel f q := by
  intro fuel
  induction fuel with
  | zero => intro f q; simp [futureSetAux]
  | succ n ih =>
    intro f q
    cases q with
    | nil => simp [futureSetAux]
    | cons cur rest =>
      simp only [futureSetAux]
      exact (futureScan_fst_mono cur bs f rest).trans (ih _ _)

theorem futureSetAux_subset_keys (bs : List (Nat × Block)) :
    ∀ fuel f q, (∀ x ∈ q, x ∈ f) → futureSetAux bs fuel f q ⊆ f ∪ keysOf bs := by
  intro fuel
  induction fuel with
  | zero => intro f q _; simp [futureSetAux, Finset.subset_union_left]
  | succ n ih =>
    intro f q hq
    cases q with
    | nil => simp [futureSetAux, Finset.subset_union_left]
    | cons cur rest =>
      simp only [futureSetAux]
      have hrest : ∀ x ∈ rest, x ∈ f := fun x hx => hq x (List.mem_cons_of_mem _ hx)
      have h2 : ∀ x ∈ (futureScan cur bs f rest).2, x ∈ (futureScan cur bs f rest).1 :=
        futureScan_snd_closed cur bs f rest hrest
      refine (ih _ _ h2).trans ?_
      exact Finset.union_subset_union_left (futureScan_fst_subset cur bs f rest) |>.trans
        (by rw [Finset.union_assoc, Finset.union_self])

/-- With enough fuel the loop computes a set closed under the child
relation: this is the completeness half of the breadth-first traversal. -/
theorem futureSetAux_closed (bs : List (Nat × Block)) :
    ∀ fuel f q,
      2 * ((keysOf bs) \ f).card + q.length + 1 ≤ fuel →
      (∀ x ∈ q, x ∈ f) →
      (∀ x ∈ f, x ∈ q ∨ ∀ pb ∈ bs, x ∈ pb.2.parents → pb.1 ∈ f) →
      ∀ x ∈ futureSetAux bs fuel f q, ∀ pb ∈ bs,
        x ∈ pb.2.parents → pb.1 ∈ futureSetAux bs fuel f q := by
  intro fuel
  induction fuel with
  | zero => intro f q hfuel; omega
  | succ n ih =>
    intro f q hfuel hq hinv
    cases q with
    | nil =>
      rw [futureSetAux_nil]
      intro x hx pb hpb hpar
      rcases hinv x hx with hxq | hcl
      · simp at hxq
      · exact hcl pb hpb hpar
    | cons cur rest =>
      simp only [futureSetAux]
      have hmono : f ⊆ (futureScan cur bs f rest).1 := futureScan_fst_mono cur bs f rest
      have hkeys : (futureScan cur bs f rest).1 ⊆ f ∪ keysOf bs :=
        futureScan_fst_subset cur bs f rest
      have hrest : ∀ x ∈ rest, x ∈ f := fun x hx => hq x (List.mem_cons_of_mem _ hx)
      refine ih (futureScan cur bs f rest).1 (futureScan cur bs f rest).2 ?_ ?_ ?_
      · have hnew : (futureScan cur bs f rest).1 \ f ⊆ keysOf bs := by
          intro a ha
          obtain ⟨ha1, ha2⟩ := Finset.mem_sdiff.mp ha
          rcases Finset.mem_union.mp (hkeys ha1) with h | h
          · exact absurd h ha2
          · exact h
        have hcard := card_sdiff_grow (keysOf bs) hmono hnew
        have hlen := futureScan_len cur bs f rest
        have hfc : f.card ≤ (futureScan cur bs f rest).1.card := Finset.card_le_card hmono
        simp only [List.length_cons] at hfuel
        omega
      · exact futureScan_snd_closed cur bs f rest hrest
      · intro x hx
        rcases futureScan_fst_cases cur bs f rest x hx with hxf | hxs
        · rcases hinv x hxf with hxq | hcl
          · rcases List.mem_cons.mp hxq with rfl | hxr
            · right
              intro pb hpb hpar
              exact futureScan_children x bs f rest pb hpb hpar
            · left
              obtain ⟨l, hl⟩ := futureScan_snd_suffix cur bs f rest
              rw [hl]
              exact List.mem_append_right _ hxr
          · right
            intro pb hpb hpar
            exact hmono (hcl pb hpb hpar)
        · exact Or.inl hxs

/-- If nothing lists `current` as a parent, the scan is the identity. -/
theorem futureScan_no_children (current : Nat) (bs : List (Nat × Block))
    (h : ∀ pb ∈ bs, current ∉ pb.2.parents) :
    ∀ f q, futureScan current bs f q = (f, q) := by
  induction bs with
  | nil => intro f q; simp [futureScan]
  | cons hd tl ih =>
    intro f q
    obtain ⟨cid, c⟩ := hd
    have hcond : ¬(current ∈ c.parents ∧ cid ∉ f) := by
      intro hc
      exact h (cid, c) (List.mem_cons_self _ _) hc.1
    simp only [futureScan, if_neg hcond]
    exact ih (fun pb hpb => h pb (List.mem_cons_of_mem _ hpb)) f q

/-! ### `future_set` -/

theorem future_set_self (dag : ToyDag) (i : Nat) : i ∈ dag.future_set i :=
  futureSetAux_mono dag.blocks _ {i} [i] (Finset.mem_singleton_self i)

theorem future_set_subset (dag : ToyDag) (i : Nat) :
    dag.future_set i ⊆ {i} ∪ keysOf dag.blocks :=
  futureSetAux_subset_keys dag.blocks _ {i} [i] (by simp)

/-- Every member of a computed future set has its recorded children in the
set as well. -/
theorem future_set_closed (dag : ToyDag) (i : Nat) :
    ∀ x ∈ dag.future_set i, ∀ pb ∈ dag.blocks,
      x ∈ pb.2.parents → pb.1 ∈ dag.future_set i := by
  refine futureSetAux_closed dag.blocks (dagFuel dag.blocks) {i} [i] ?_ (by simp) ?_
  · have h1 : ((keysOf dag.blocks) \ {i}).card ≤ (keysOf dag.blocks).card :=
      Finset.card_le_card (Finset.sdiff_subset)
    have h2 := card_keysOf_le dag.blocks
    simp only [dagFuel, List.length_cons, List.length_nil]
    omega
  · intro x hx
    left
    simpa using hx

/-- The future set of an id that no recorded block lists as a parent is the
singleton of that id (this is what happens for the candidate id during
`create_block`: the block is not yet recorded). -/
theorem future_set_fresh (dag : ToyDag) (n : Nat)
    (h : ∀ pb ∈ dag.blocks, n ∉ pb.2.parents) :
    dag.future_set n = {n} := by
  show futureSetAux dag.blocks (dagFuel dag.blocks) {n} [n] = {n}
  have hf : dagFuel dag.blocks = (2 * dag.blocks.length + 1) + 1 := by
    simp [dagFuel]
  rw [hf]
  simp only [futureSetAux]
  rw [futureScan_no_children n dag.blocks h]

/-! ### The parent enqueue of `past_set` -/

theorem pastEnqueue_fst_mono : ∀ ps (past : Finset Nat) q, past ⊆ (pastEnqueue ps past q).1 := by
  intro ps
  induction ps with
  | nil => intro past q; simp [pastEnqueue]
  | cons p tl ih =>
    intro past q
    by_cases hp : p ∈ past
    · simp only [pastEnqueue, if_pos hp]
      exact ih _ _
    · simp only [pastEnqueue, if_neg hp]
      exact (Finset.subset_insert _ _).trans (ih _ _)

theorem pastEnqueue_fst_eq : ∀ ps (past : Finset Nat) q,
    (pastEnqueue ps past q).1 = past ∪ ps.toFinset := by
  intro ps
  induction ps with
  | nil => intro past q; simp [pastEnqueue]
  | cons p tl ih =>
    intro past q
    by_cases hp : p ∈ past
    · simp only [pastEnqueue, if_pos hp]
      rw [ih]
      ext a
      simp only [Finset.mem_union, List.toFinset_cons, Finset.mem_insert]
      constructor
      · rintro (h | h)
        · exact Or.inl h
        · exact Or.inr (Or.inr h)
      · rintro (h | rfl | h)
        · exact Or.inl h
        · exact Or.inl hp
        · exact Or.inr h
    · simp only [pastEnqueue, if_neg hp]
      rw [ih]
      ext a
      simp only [Finset.mem_union, Finset.mem_insert, List.toFinset_cons]
      tauto

theorem pastEnqueue_len : ∀ ps (past : Finset Nat) q,
    (pastEnqueue ps past q).2.length + past.card
      = q.length + (pastEnqueue ps past q).1.card := by
  intro ps
  induction ps with
  | nil => intro past q; simp [pastEnqueue]
  | cons p tl ih =>
    intro past q
    by_cases hp : p ∈ past
    · simp only [pastEnqueue, if_pos hp]
      exact ih _ _
    · simp only [pastEnqueue, if_neg hp]
      have := ih (insert p past) (p :: q)
      rw [Finset.card_insert_of_not_mem hp, List.length_cons] at this
      omega

theorem pastEnqueue_snd_suffix : ∀ ps (past : Finset Nat) q,
    ∃ l, (pastEnqueue ps past q).2 = l ++ q := by
  intro ps
  induction ps with
  | nil => intro past q; exact ⟨[], by simp [pastEnqueue]⟩
  | cons p tl ih =>
    intro past q
    by_cases hp : p ∈ past
    · simp only [pastEnqueue, if_pos hp]
      exact ih _ _
    · simp only [pastEnqueue, if_neg hp]
      obtain ⟨l, hl⟩ := ih (insert p past) (p :: q)
      exact ⟨l ++ [p], by simp [hl]⟩

theorem pastEnqueue_snd_closed : ∀ ps (past : Finset Nat) q,
    (∀ x ∈ q, x ∈ past) →
    ∀ x ∈ (pastEnqueue ps past q).2, x ∈ (pastEnqueue ps past q).1 := by
  intro ps
  induction ps with
  | nil => intro past q hq; simpa [pastEnqueue] using hq
  | cons p tl ih =>
    intro past q hq
    by_cases hp : p ∈ past
    · simp only [pastEnqueue, if_pos hp]
      exact ih _ _ hq
    · simp only [pastEnqueue, if_neg hp]
      refine ih _ _ ?_
      intro x hx
      rcases List.mem_cons.mp hx with rfl | hx
      · exact Finset.mem_insert_self _ _
      · exact Finset.mem_insert_of_mem (hq x hx)

theorem pastEnqueue_snd_mem : ∀ ps (past : Finset Nat) q,
    ∀ x ∈ (pastEnqueue ps past q).2, x ∈ ps ∨ x ∈ q := by
  intro ps
  induction ps with
  | nil => intro past q x hx; exact Or.inr (by simpa [pastEnqueue] using hx)
  | cons p tl ih =>
    intro past q x hx
    by_cases hp : p ∈ past
    · simp only [pastEnqueue, if_pos hp] at hx
      rcases ih _ _ x hx with h | h
      · exact Or.inl (List.mem_cons_of_mem _ h)
      · exact Or.inr h
    · simp only [pastEnqueue, if_neg hp] at hx
      rcases ih _ _ x hx with h | h
      · exact Or.inl (List.mem_cons_of_mem _ h)
      · rcases List.mem_cons.mp h with rfl | h
        · exact Or.inl (List.mem_cons_self _ _)
        · exact Or.inr h

/-! ### The worklist loop of `past_set` -/

theorem pastSetAux_mono (bs : List (Nat × Block)) :
    ∀ fuel past q r, pastSetAux bs fuel past q = some r → past ⊆ r := by
  intro fuel
  induction fuel with
  | zero => intro past q r h; simp [pastSetAux] at h
  | succ n ih =>
    intro past q r h
    cases q with
    | nil =>
      simp only [pastSetAux, Option.some.injEq] at h
      exact h ▸ Finset.Subset.refl _
    | cons cur rest =>
      cases hlook : lookupBlock bs cur with
      | none =>
        simp only [pastSetAux, hlook] at h
        exact Option.noConfusion h
      | some b =>
        simp only [pastSetAux, hlook] at h
        exact (pastEnqueue_fst_mono b.parents past rest).trans (ih _ _ _ h)

theorem pastSetAux_parents (bs : List (Nat × Block)) :
    ∀ fuel past q r, pastSetAux bs fuel past q = some r →
      ∀ x ∈ q, ∀ b, lookupBlock bs x = some b → ∀ p ∈ b.parents, p ∈ r := by
  intro fuel
  induction fuel with
  | zero => intro past q r h; simp [pastSetAux] at h
  | succ n ih =>
    intro past q r h x hx b hb p hp
    cases q with
    | nil => simp at hx
    | cons cur rest =>
      cases hlook : lookupBlock bs cur with
      | none =>
        simp only [pastSetAux, hlook] at h
        exact Option.noConfusion h
      | some b0 =>
        simp only [pastSetAux, hlook] at h
        rcases List.mem_cons.mp hx with rfl | hx
        · rw [hlook] at hb
          injection hb with hb
          subst hb
          refine pastSetAux_mono bs n _ _ r h ?_
          rw [pastEnqueue_fst_eq]
          exact Finset.mem_union_right _ (List.mem_toFinset.mpr hp)
        · obtain ⟨l, hl⟩ := pastEnqueue_snd_suffix b0.parents past rest
          refine ih _ _ _ h x ?_ b hb p hp
          rw [hl]
          exact List.mem_append_right _ hx

/-- Fuel sufficiency: on a parent-closed block map the loop never exhausts
its fuel, so `none` can only arise from the unchecked index. -/
theorem pastSetAux_some (bs : List (Nat × Block))
    (hcl : ∀ pb ∈ bs, ∀ p ∈ pb.2.parents, p ∈ keysOf bs) :
    ∀ fuel past q, (∀ x ∈ q, x ∈ keysOf bs) →
      2 * ((keysOf bs) \ past).card + q.length + 1 ≤ fuel →
      ∃ r, pastSetAux bs fuel past q = some r := by
  intro fuel
  induction fuel with
  | zero => intro past q _ hfuel; omega
  | succ n ih =>
    intro past q hq hfuel
    cases q with
    | nil => exact ⟨past, by simp [pastSetAux]⟩
    | cons cur rest =>
      obtain ⟨b, hb⟩ := lookupBlock_isSome_of_mem_keys (hq cur (List.mem_cons_self _ _))
      have hpar : ∀ p ∈ b.parents, p ∈ keysOf bs := hcl (cur, b) (lookupBlock_mem hb)
      have hrest : ∀ x ∈ rest, x ∈ keysOf bs := fun x hx => hq x (List.mem_cons_of_mem _ hx)
      have hfe := pastEnqueue_fst_eq b.parents past rest
      have hmono := pastEnqueue_fst_mono b.parents past rest
      have hnew : (pastEnqueue b.parents past rest).1 \ past ⊆ keysOf bs := by
        intro a ha
        obtain ⟨ha1, ha2⟩ := Finset.mem_sdiff.mp ha
        rw [hfe] at ha1
        rcases Finset.mem_union.mp ha1 with h | h
        · exact absurd h ha2
        · exact hpar a (List.mem_toFinset.mp h)
      have hcard := card_sdiff_grow (keysOf bs) hmono hnew
      have hlen := pastEnqueue_len b.parents past rest
      have hfc : past.card ≤ (pastEnqueue b.parents past rest).1.card :=
        Finset.card_le_card hmono
      have hq2 : ∀ x ∈ (pastEnqueue b.parents past rest).2, x ∈ keysOf bs := by
        intro x hx
        rcases pastEnqueue_snd_mem b.parents past rest x hx with h | h
        · exact hpar x h
        · exact hrest x h
      simp only [List.length_cons] at hfuel
      obtain ⟨r, hr⟩ := ih (pastEnqueue b.parents past rest).1
        (pastEnqueue b.parents past rest).2 hq2 (by omega)
      exact ⟨r, by simp only [pastSetAux, hb]; exact hr⟩

/-! ### `past_set` -/

theorem past_set_some (dag : ToyDag) (t : Nat)
    (hcl : ∀ pb ∈ dag.blocks, ∀ p ∈ pb.2.parents, p ∈ keysOf dag.blocks)
    (ht : t ∈ keysOf dag.blocks) :
    ∃ r, dag.past_set t = some r := by
  refine pastSetAux_some dag.blocks hcl (dagFuel dag.blocks) {t} [t] (by simpa using ht) ?_
  have h1 : ((keysOf dag.blocks) \ {t}).card ≤ (keysOf dag.blocks).card :=
    Finset.card_le_card (Finset.sdiff_subset)
  have h2 := card_keysOf_le dag.blocks
  simp only [dagFuel, List.length_cons, List.length_nil]
  omega

theorem past_set_self {dag : ToyDag} {t : Nat} {r : Finset Nat}
    (h : dag.past_set t = some r) : t ∈ r :=
  pastSetAux_mono dag.blocks _ {t} [t] r h (Finset.mem_singleton_self t)

theorem past_set_parents {dag : ToyDag} {c : Nat} {r : Finset Nat} {b : Block}
    (h : dag.past_set c = some r) (hb : lookupBlock dag.blocks c = some b) :
    ∀ p ∈ b.parents, p ∈ r :=
  pastSetAux_parents dag.blocks _ {c} [c] r h c (List.mem_cons_self _ _) b hb

/-! ### `blue_tips`, the keyed maximum, and `update_selected_parent` -/

theorem blueFilter_some (bs : List (Nat × Block)) :
    ∀ l, (∀ t ∈ l, ∃ b, lookupBlock bs t = some b) →
      ∃ bl, blueFilter bs l = some bl := by
  intro l
  induction l with
  | nil => intro _; exact ⟨[], rfl⟩
  | cons t ts ih =>
    intro h
    obtain ⟨b, hb⟩ := h t (List.mem_cons_self _ _)
    obtain ⟨bl, hbl⟩ := ih (fun x hx => h x (List.mem_cons_of_mem _ hx))
    exact ⟨if b.color = Color.Blue then t :: bl else bl, by
      simp only [blueFilter, hb, hbl]⟩

theorem blueFilter_mem (bs : List (Nat × Block)) :
    ∀ l bl, blueFilter bs l = some bl →
      ∀ x, (x ∈ bl ↔ x ∈ l ∧ ∃ b, lookupBlock bs x = some b ∧ b.color = Color.Blue) := by
  intro l
  induction l with
  | nil =>
    intro bl h x
    simp only [blueFilter, Option.some.injEq] at h
    subst h
    simp
  | cons t ts ih =>
    intro bl h x
    cases hb : lookupBlock bs t with
    | none => simp only [blueFilter, hb] at h; exact Option.noConfusion h
    | some b =>
      cases hrest : blueFilter bs ts with
      | none => simp only [blueFilter, hb, hrest] at h; exact Option.noConfusion h
      | some rest =>
        simp only [blueFilter, hb, hrest, Option.some.injEq] at h
        subst h
        by_cases hcB : b.color = Color.Blue
        · rw [if_pos hcB]
          constructor
          · intro hx
            rcases List.mem_cons.mp hx with rfl | hx
            · exact ⟨List.mem_cons_self _ _, b, hb, hcB⟩
            · obtain ⟨h1, h2⟩ := (ih rest hrest x).mp hx
              exact ⟨List.mem_cons_of_mem _ h1, h2⟩
          · rintro ⟨h1, b', hb', hcB'⟩
            rcases List.mem_cons.mp h1 with rfl | h1
            · exact List.mem_cons_self _ _
            · exact List.mem_cons_of_mem _ ((ih rest hrest x).mpr ⟨h1, b', hb', hcB'⟩)
        · rw [if_neg hcB]
          constructor
          · intro hx
            obtain ⟨h1, h2⟩ := (ih rest hrest x).mp hx
            exact ⟨List.mem_cons_of_mem _ h1, h2⟩
          · rintro ⟨h1, b', hb', hcB'⟩
            rcases List.mem_cons.mp h1 with rfl | h1
            · rw [hb] at hb'
              injection hb' with hb'
              subst hb'
              exact absurd hcB' hcB
            · exact (ih rest hrest x).mpr ⟨h1, b', hb', hcB'⟩

theorem keyedPast_some (dag : ToyDag) :
    ∀ l, (∀ t ∈ l, ∃ s, dag.past_set t = some s) →
      ∃ kt, keyedPast dag l = some kt := by
  intro l
  induction l with
  | nil => intro _; exact ⟨[], rfl⟩
  | cons t ts ih =>
    intro h
    obtain ⟨s, hs⟩ := h t (List.mem_cons_self _ _)
    obtain ⟨kt, hkt⟩ := ih (fun x hx => h x (List.mem_cons_of_mem _ hx))
    exact ⟨(t, s.card) :: kt, by simp only [keyedPast, hs, hkt]⟩

theorem keyedPast_pairs (dag : ToyDag) :
    ∀ l kt, keyedPast dag l = some kt →
      ∀ pr ∈ kt, pr.1 ∈ l ∧ ∃ s, dag.past_set pr.1 = some s ∧ pr.2 = s.card := by
  intro l
  induction l with
  | nil =>
    intro kt h pr hpr
    simp only [keyedPast, Option.some.injEq] at h
    subst h
    simp at hpr
  | cons t ts ih =>
    intro kt h pr hpr
    cases hs : dag.past_set t with
    | none => simp only [keyedPast, hs] at h; exact Option.noConfusion h
    | some s =>
      cases hrest : keyedPast dag ts with
      | none => simp only [keyedPast, hs, hrest] at h; exact Option.noConfusion h
      | some rest =>
        simp only [keyedPast, hs, hrest, Option.some.injEq] at h
        subst h
        rcases List.mem_cons.mp hpr with rfl | hpr
        · exact ⟨List.mem_cons_self _ _, s, hs, rfl⟩
        · obtain ⟨h1, h2⟩ := ih rest hrest pr hpr
          exact ⟨List.mem_cons_of_mem _ h1, h2⟩

theorem keyedPast_covers (dag : ToyDag) :
    ∀ l kt, keyedPast dag l = some kt →
      ∀ t ∈ l, ∃ k, (t, k) ∈ kt := by
  intro l
  induction l with
  | nil => intro kt h t ht; simp at ht
  | cons t0 ts ih =>
    intro kt h t ht
    cases hs : dag.past_set t0 with
    | none => simp only [keyedPast, hs] at h; exact Option.noConfusion h
    | some s =>
      cases hrest : keyedPast dag ts with
      | none => simp only [keyedPast, hs, hrest] at h; exact Option.noConfusion h
      | some rest =>
        simp only [keyedPast, hs, hrest, Option.some.injEq] at h
        subst h
        rcases List.mem_cons.mp ht with rfl | ht
        · exact ⟨s.card, List.mem_cons_self _ _⟩
        · obtain ⟨k, hk⟩ := ih rest hrest t ht
          exact ⟨k, List.mem_cons_of_mem _ hk⟩

theorem keyedPast_nil_iff (dag : ToyDag) :
    ∀ l kt, keyedPast dag l = some kt → (kt = [] ↔ l = []) := by
  intro l
  cases l with
  | nil =>
    intro kt h
    simp only [keyedPast, Option.some.injEq] at h
    subst h
    simp
  | cons t ts =>
    intro kt h
    cases hs : dag.past_set t with
    | none => simp only [keyedPast, hs] at h; exact Option.noConfusion h
    | some s =>
      cases hrest : keyedPast dag ts with
      | none => simp only [keyedPast, hs, hrest] at h; exact Option.noConfusion h
      | some rest =>
        simp only [keyedPast, hs, hrest, Option.some.injEq] at h
        subst h
        simp

theorem maxByKeyAux_mem : ∀ l (best : Nat × Nat), maxByKeyAux best l ∈ best :: l := by
  intro l
  induction l with
  | nil => intro best; simp [maxByKeyAux]
  | cons x rest ih =>
    intro best
    simp only [maxByKeyAux]
    by_cases hle : best.2 ≤ x.2
    · rw [if_pos hle]
      rcases List.mem_cons.mp (ih x) with h | h
      · rw [h]
        exact List.mem_cons_of_mem _ (List.mem_cons_self _ _)
      · exact List.mem_cons_of_mem _ (List.mem_cons_of_mem _ h)
    · rw [if_neg hle]
      rcases List.mem_cons.mp (ih best) with h | h
      · rw [h]
        exact List.mem_cons_self _ _
      · exact List.mem_cons_of_mem _ (List.mem_cons_of_mem _ h)

theorem maxByKeyAux_le : ∀ l (best : Nat × Nat), ∀ pr ∈ best :: l,
    pr.2 ≤ (maxByKeyAux best l).2 := by
  intro l
  induction l with
  | nil =>
    intro best pr hpr
    rcases List.mem_cons.mp hpr with rfl | h
    · exact Nat.le_refl _
    · simp at h
  | cons x rest ih =>
    intro best pr hpr
    simp only [maxByKeyAux]
    have hb : best.2 ≤ (if best.2 ≤ x.2 then x else best).2 := by
      by_cases hle : best.2 ≤ x.2
      · rw [if_pos hle]; exact hle
      · rw [if_neg hle]
    have hx : x.2 ≤ (if best.2 ≤ x.2 then x else best).2 := by
      by_cases hle : best.2 ≤ x.2
      · rw [if_pos hle]
      · rw [if_neg hle]; omega
    have hbest := ih (if best.2 ≤ x.2 then x else best)
      (if best.2 ≤ x.2 then x else best) (List.mem_cons_self _ _)
    rcases List.mem_cons.mp hpr with rfl | hpr
    · omega
    · rcases List.mem_cons.mp hpr with rfl | hpr
      · omega
      · exact ih _ pr (List.mem_cons_of_mem _ hpr)

theorem maxByKeyList_spec : ∀ kt t, maxByKeyList kt = some t →
    ∃ k, (t, k) ∈ kt ∧ ∀ pr ∈ kt, pr.2 ≤ k := by
  intro kt t h
  cases kt with
  | nil => exact Option.noConfusion h
  | cons x rest =>
    simp only [maxByKeyList, Option.some.injEq] at h
    refine ⟨(maxByKeyAux x rest).2, ?_, fun pr hpr => maxByKeyAux_le rest x pr hpr⟩
    rw [← h]
    exact maxByKeyAux_mem rest x

theorem maxByKeyList_none_iff : ∀ kt, maxByKeyList kt = none ↔ kt = [] := by
  intro kt
  cases kt <;> simp [maxByKeyList]

/-- `update_selected_parent` only ever touches the `selected_parent` field. -/
theorem update_selected_parent_shape {dag d' : ToyDag}
    (h : dag.update_selected_parent = some d') :
    d'.blocks = dag.blocks ∧ d'.tips = dag.tips ∧ d'.next_id = dag.next_id := by
  unfold ToyDag.update_selected_parent at h
  cases hbf : blueFilter dag.blocks dag.tips with
  | none => rw [hbf] at h; exact Option.noConfusion h
  | some bl =>
    rw [hbf] at h
    dsimp only at h
    cases hkp : keyedPast dag bl with
    | none => rw [hkp] at h; exact Option.noConfusion h
    | some kt =>
      rw [hkp] at h
      dsimp only at h
      cases hmx : maxByKeyList kt with
      | none =>
        rw [hmx] at h
        injection h with h
        subst h
        exact ⟨rfl, rfl, rfl⟩
      | some best =>
        rw [hmx] at h
        injection h with h
        subst h
        exact ⟨rfl, rfl, rfl⟩

/-- The new selected parent is either unchanged or one of the tips. -/
theorem update_selected_parent_sp {dag d' : ToyDag}
    (h : dag.update_selected_parent = some d') :
    d'.selected_parent = dag.selected_parent ∨ d'.selected_parent ∈ dag.tips := by
  unfold ToyDag.update_selected_parent at h
  cases hbf : blueFilter dag.blocks dag.tips with
  | none => rw [hbf] at h; exact Option.noConfusion h
  | some bl =>
    rw [hbf] at h
    dsimp only at h
    cases hkp : keyedPast dag bl with
    | none => rw [hkp] at h; exact Option.noConfusion h
    | some kt =>
      rw [hkp] at h
      dsimp only at h
      cases hmx : maxByKeyList kt with
      | none =>
        rw [hmx] at h
        injection h with h
        subst h
        exact Or.inl rfl
      | some best =>
        rw [hmx] at h
        injection h with h
        subst h
        right
        obtain ⟨k, hk, _⟩ := maxByKeyList_spec kt best hmx
        obtain ⟨h1, _⟩ := keyedPast_pairs dag bl kt hkp (best, k) hk
        exact ((blueFilter_mem dag.blocks dag.tips bl hbf best).mp h1).1

/-- Full characterisation of a successful `update_selected_parent` on a
state whose tips are recorded and whose parent links are closed. -/
theorem update_selected_parent_char (dag : ToyDag)
    (htips : ∀ t ∈ dag.tips, t ∈ keysOf dag.blocks)
    (hcl : ∀ pb ∈ dag.blocks, ∀ p ∈ pb.2.parents, p ∈ keysOf dag.blocks) :
    ∃ d', dag.update_selected_parent = some d' ∧
      d'.blocks = dag.blocks ∧ d'.tips = dag.tips ∧ d'.next_id = dag.next_id ∧
      ((∀ t ∈ dag.tips, ¬ BlueTip dag t) → d' = dag) ∧
      ((∃ t ∈ dag.tips, BlueTip dag t) →
        d'.selected_parent ∈ dag.tips ∧ BlueTip dag d'.selected_parent ∧
        ∃ s, dag.past_set d'.selected_parent = some s ∧
          ∀ t ∈ dag.tips, BlueTip dag t →
            ∀ s', dag.past_set t = some s' → s'.card ≤ s.card) := by
  obtain ⟨bl, hbf⟩ := blueFilter_some dag.blocks dag.tips
    (fun t ht => lookupBlock_isSome_of_mem_keys (htips t ht))
  have hblmem := blueFilter_mem dag.blocks dag.tips bl hbf
  obtain ⟨kt, hkp⟩ := keyedPast_some dag bl (by
    intro t ht
    have h1 := (hblmem t).mp ht
    exact past_set_some dag t hcl (htips t h1.1))
  cases hmx : maxByKeyList kt with
  | none =>
    have hktnil : kt = [] := (maxByKeyList_none_iff kt).mp hmx
    have hblnil : bl = [] := (keyedPast_nil_iff dag bl kt hkp).mp hktnil
    refine ⟨dag, ?_, rfl, rfl, rfl, fun _ => rfl, ?_⟩
    · unfold ToyDag.update_selected_parent
      rw [hbf]
      dsimp only
      rw [hkp]
      dsimp only
      rw [hmx]
    · rintro ⟨t, ht, hblue⟩
      obtain ⟨b, hb, hc⟩ := hblue
      have : t ∈ bl := (hblmem t).mpr ⟨ht, b, hb, hc⟩
      rw [hblnil] at this
      simp at this
  | some best =>
    obtain ⟨k, hk, hmax⟩ := maxByKeyList_spec kt best hmx
    obtain ⟨hbestbl, s, hs, hks⟩ := keyedPast_pairs dag bl kt hkp (best, k) hk
    obtain ⟨hbesttips, b, hb, hc⟩ := (hblmem best).mp hbestbl
    refine ⟨{ dag with selected_parent := best }, ?_, rfl, rfl, rfl, ?_, ?_⟩
    · unfold ToyDag.update_selected_parent
      rw [hbf]
      dsimp only
      rw [hkp]
      dsimp only
      rw [hmx]
    · intro hno
      exact absurd ⟨b, hb, hc⟩ (hno best hbesttips)
    · intro _
      refine ⟨hbesttips, ⟨b, hb, hc⟩, s, hs, ?_⟩
      intro t ht hblue s' hs'
      obtain ⟨b', hb', hc'⟩ := hblue
      have htbl : t ∈ bl := (hblmem t).mpr ⟨ht, b', hb', hc'⟩
      obtain ⟨k', hk'⟩ := keyedPast_covers dag bl kt hkp t htbl
      obtain ⟨_, s'', hs'', hks''⟩ := keyedPast_pairs dag bl kt hkp (t, k') hk'
      rw [hs'] at hs''
      injection hs'' with hs''
      subst hs''
      have := hmax (t, k') hk'
      simp only at this hks'' hks
      omega

/-! ### Tip-set updates -/

theorem tipsInsert_mem_iff {tips : List Nat} {i x : Nat} :
    x ∈ tipsInsert tips i ↔ x = i ∨ x ∈ tips := by
  unfold tipsInsert
  by_cases hi : i ∈ tips
  · rw [if_pos hi]
    constructor
    · exact Or.inr
    · rintro (rfl | h)
      · exact hi
      · exact h
  · rw [if_neg hi]
    exact List.mem_cons

theorem tipsInsert_self (tips : List Nat) (i : Nat) : i ∈ tipsInsert tips i :=
  tipsInsert_mem_iff.mpr (Or.inl rfl)

theorem tipsInsert_ne_nil {tips : List Nat} {i : Nat} : tipsInsert tips i ≠ [] := by
  intro h
  have := tipsInsert_self tips i
  rw [h] at this
  simp at this

theorem tipsInsert_nodup {tips : List Nat} {i : Nat} (h : tips.Nodup) :
    (tipsInsert tips i).Nodup := by
  unfold tipsInsert
  by_cases hi : i ∈ tips
  · rwa [if_pos hi]
  · rw [if_neg hi]
    exact List.nodup_cons.mpr ⟨hi, h⟩

theorem updateTips_subset : ∀ ps (tips : List Nat), ∀ x ∈ updateTips tips ps, x ∈ tips := by
  intro ps
  induction ps with
  | nil => intro tips x hx; simpa [updateTips] using hx
  | cons pid rest ih =>
    intro tips x hx
    simp only [updateTips] at hx
    by_cases hcond : 1 < tips.length ∨ pid ∉ tips
    · rw [if_pos hcond] at hx
      exact List.erase_subset _ _ (ih _ x hx)
    · rw [if_neg hcond] at hx
      exact ih _ x hx

theorem updateTips_keeps : ∀ ps (tips : List Nat) t, t ∈ tips → t ∉ ps →
    t ∈ updateTips tips ps := by
  intro ps
  induction ps with
  | nil => intro tips t ht _; simpa [updateTips] using ht
  | cons pid rest ih =>
    intro tips t ht hnot
    have hne : t ≠ pid := fun h => hnot (h ▸ List.mem_cons_self _ _)
    have hnr : t ∉ rest := fun h => hnot (List.mem_cons_of_mem _ h)
    simp only [updateTips]
    by_cases hcond : 1 < tips.length ∨ pid ∉ tips
    · rw [if_pos hcond]
      exact ih _ t (List.mem_erase_of_ne hne |>.mpr ht) hnr
    · rw [if_neg hcond]
      exact ih _ t ht hnr

theorem updateTips_nodup : ∀ ps (tips : List Nat), tips.Nodup → (updateTips tips ps).Nodup := by
  intro ps
  induction ps with
  | nil => intro tips h; simpa [updateTips]
  | cons pid rest ih =>
    intro tips h
    simp only [updateTips]
    by_cases hcond : 1 < tips.length ∨ pid ∉ tips
    · rw [if_pos hcond]
      exact ih _ (h.erase pid)
    · rw [if_neg hcond]
      exact ih _ h

/-- One step of the eviction loop, phrased as the spec states it: the parent
is removed unless the tip set is exactly the singleton of that parent. -/
theorem updateTips_policy : ∀ (tips : List Nat) (pid : Nat) (ps : List Nat),
    updateTips tips (pid :: ps)
      = updateTips (if tips = [pid] then tips else tips.erase pid) ps := by
  intro tips pid ps
  simp only [updateTips]
  congr 1
  by_cases h1 : tips = [pid]
  · rw [if_pos h1]
    have hcond : ¬(1 < tips.length ∨ pid ∉ tips) := by
      rw [h1]
      simp
    rw [if_neg hcond]
  · rw [if_neg h1]
    by_cases h2 : pid ∈ tips
    · have hlen : 1 < tips.length := by
        cases tips with
        | nil => simp at h2
        | cons a tl =>
          cases tl with
          | nil =>
            simp only [List.mem_singleton] at h2
            exact absurd (by rw [h2]) h1
          | cons b tl2 => simp
      rw [if_pos (Or.inl hlen)]
    · rw [if_pos (Or.inr h2)]

/-! ### `create_block` -/

/-- What any successful `create_block` did to the state, read off from the
definition. -/
theorem create_block_step {dag : ToyDag} {ps : List Nat} {id : Nat} {d' : ToyDag}
    (h : dag.create_block ps = some (id, d')) :
    id = dag.next_id ∧ d'.next_id = dag.next_id + 1 ∧
      d'.blocks = (dag.next_id, candidateBlock dag ps) :: dag.blocks ∧
      d'.tips = tipsInsert (updateTips dag.tips ps) dag.next_id ∧
      ps ≠ [] := by
  have hne : ps ≠ [] := by
    intro hnil
    rw [hnil] at h
    simp [ToyDag.create_block] at h
  simp only [ToyDag.create_block] at h
  rw [if_neg (by simp [hne])] at h
  cases husp : ToyDag.update_selected_parent
      { blocks := (dag.next_id,
          { id := dag.next_id, parents := ps,
            color := if ToyDag.anticone_size
                { blocks := dag.blocks, tips := dag.tips, next_id := dag.next_id + 1,
                  selected_parent := dag.selected_parent }
                dag.next_id dag.selected_parent ≤ K then Color.Blue else Color.Red })
          :: dag.blocks
        tips := tipsInsert (updateTips dag.tips ps) dag.next_id
        next_id := dag.next_id + 1
        selected_parent := dag.selected_parent } with
  | none =>
    rw [husp] at h
    exact Option.noConfusion h
  | some d4 =>
    rw [husp] at h
    injection h with h
    rw [Prod.mk.injEq] at h
    obtain ⟨hid, hd4⟩ := h
    subst hid
    subst hd4
    have hsh := update_selected_parent_shape husp
    exact ⟨rfl, hsh.2.2, hsh.1, hsh.2.1, hne⟩

/-- `create_block` unfolded in terms of `insertState` (definitional). -/
theorem create_block_eq (dag : ToyDag) (ps : List Nat) :
    dag.create_block ps
      = if ps.isEmpty then none
        else
          match (insertState dag ps).update_selected_parent with
          | none => none
          | some dag4 => some (dag.next_id, dag4) := rfl

theorem insertState_tips (dag : ToyDag) (ps : List Nat)
    (htips : ∀ t ∈ dag.tips, t ∈ keysOf dag.blocks) :
    ∀ t ∈ (insertState dag ps).tips, t ∈ keysOf (insertState dag ps).blocks := by
  intro t ht
  simp only [insertState] at ht ⊢
  rw [keysOf_cons]
  rcases tipsInsert_mem_iff.mp ht with rfl | ht
  · exact Finset.mem_insert_self _ _
  · exact Finset.mem_insert_of_mem (htips t (updateTips_subset ps dag.tips t ht))

theorem insertState_closed (dag : ToyDag) (ps : List Nat)
    (hcl : ∀ pb ∈ dag.blocks, ∀ p ∈ pb.2.parents, p ∈ keysOf dag.blocks)
    (hex : ∀ p ∈ ps, p ∈ keysOf dag.blocks) :
    ∀ pb ∈ (insertState dag ps).blocks, ∀ p ∈ pb.2.parents,
      p ∈ keysOf (insertState dag ps).blocks := by
  intro pb hpb p hp
  simp only [insertState] at hpb ⊢
  rw [keysOf_cons]
  rcases List.mem_cons.mp hpb with rfl | hpb
  · refine Finset.mem_insert_of_mem (hex p ?_)
    simpa [candidateBlock] using hp
  · exact Finset.mem_insert_of_mem (hcl pb hpb p hp)

/-- With recorded tips, closed parent links, and a non-empty list of
recorded parents, `create_block` succeeds and returns the current id
counter. -/
theorem create_block_some (dag : ToyDag) (ps : List Nat)
    (htips : ∀ t ∈ dag.tips, t ∈ keysOf dag.blocks)
    (hcl : ∀ pb ∈ dag.blocks, ∀ p ∈ pb.2.parents, p ∈ keysOf dag.blocks)
    (hne : ps ≠ [])
    (hex : ∀ p ∈ ps, p ∈ keysOf dag.blocks) :
    ∃ d', dag.create_block ps = some (dag.next_id, d') := by
  obtain ⟨d4, husp, _⟩ := update_selected_parent_char (insertState dag ps)
    (insertState_tips dag ps htips) (insertState_closed dag ps hcl hex)
  refine ⟨d4, ?_⟩
  rw [create_block_eq, if_neg (by simp [hne]), husp]

/-- The candidate id is fresh, so its future set is a singleton and the
anticone size computed for it is `0`. -/
theorem anticone_size_next_id (dag : ToyDag)
    (hlt : ∀ pb ∈ dag.blocks, pb.1 < dag.next_id)
    (hcl : ∀ pb ∈ dag.blocks, ∀ p ∈ pb.2.parents, p ∈ keysOf dag.blocks)
    (hsp : dag.selected_parent ∈ keysOf dag.blocks) :
    dag.anticone_size dag.next_id dag.selected_parent = 0 := by
  have hklt : ∀ k ∈ keysOf dag.blocks, k < dag.next_id := by
    intro k hk
    obtain ⟨b, hb⟩ := mem_keysOf.mp hk
    exact hlt (k, b) hb
  have hno : ∀ pb ∈ dag.blocks, dag.next_id ∉ pb.2.parents := by
    intro pb hpb hmem
    exact absurd (hklt _ (hcl pb hpb _ hmem)) (lt_irrefl _)
  have hfr := future_set_fresh dag dag.next_id hno
  have hnot : dag.next_id ∉ dag.future_set dag.selected_parent := by
    intro hmem
    rcases Finset.mem_union.mp (future_set_subset dag _ hmem) with h | h
    · rw [Finset.mem_singleton] at h
      have h2 := hklt _ hsp
      rw [← h] at h2
      exact absurd h2 (lt_irrefl _)
    · exact absurd (hklt _ h) (lt_irrefl _)
  unfold ToyDag.anticone_size
  rw [hfr]
  have hsd : ({dag.next_id} : Finset Nat) \ dag.future_set dag.selected_parent
      = {dag.next_id} := by
    ext a
    simp only [Finset.mem_sdiff, Finset.mem_singleton]
    constructor
    · rintro ⟨h1, _⟩
      exact h1
    · rintro rfl
      exact ⟨rfl, hnot⟩
  rw [hsd, Finset.card_singleton]

theorem candidateColor_blue (dag : ToyDag)
    (hlt : ∀ pb ∈ dag.blocks, pb.1 < dag.next_id)
    (hcl : ∀ pb ∈ dag.blocks, ∀ p ∈ pb.2.parents, p ∈ keysOf dag.blocks)
    (hsp : dag.selected_parent ∈ keysOf dag.blocks) :
    candidateColor dag = Color.Blue := by
  unfold candidateColor
  rw [anticone_size_next_id dag hlt hcl hsp]
  rw [if_pos (Nat.zero_le _)]

/-! ### Well-formedness -/

theorem WF_new : WF ToyDag.new := by decide

theorem wf_create {dag : ToyDag} {ps : List Nat} {id : Nat} {d' : ToyDag}
    (hwf : WF dag) (hex : ∀ p ∈ ps, p ∈ keysOf dag.blocks)
    (h : dag.create_block ps = some (id, d')) : WF d' := by
  obtain ⟨hlt, hcl, htips, hnd, hsp, hlast⟩ := hwf
  obtain ⟨hid, hnext, hblocks, htips', hne⟩ := create_block_step h
  have hspnew : d'.selected_parent ∈ keysOf d'.blocks := by
    rw [create_block_eq, if_neg (by simp [hne])] at h
    cases husp : (insertState dag ps).update_selected_parent with
    | none =>
      rw [husp] at h
      exact Option.noConfusion h
    | some d4 =>
      rw [husp] at h
      injection h with h
      rw [Prod.mk.injEq] at h
      obtain ⟨_, hd4⟩ := h
      subst hd4
      rw [hblocks, keysOf_cons]
      rcases update_selected_parent_sp husp with hcase | hcase
      · rw [hcase]
        exact Finset.mem_insert_of_mem hsp
      · simp only [insertState] at hcase
        rcases tipsInsert_mem_iff.mp hcase with heq | hcase
        · rw [heq]
          exact Finset.mem_insert_self _ _
        · exact Finset.mem_insert_of_mem
            (htips _ (updateTips_subset ps dag.tips _ hcase))
  refine ⟨?_, ?_, ?_, ?_, hspnew, ?_⟩
  · intro pb hpb
    rw [hblocks] at hpb
    rw [hnext]
    rcases List.mem_cons.mp hpb with rfl | hpb
    · exact Nat.lt_succ_self _
    · exact Nat.lt_succ_of_lt (hlt pb hpb)
  · intro pb hpb p hp
    rw [hblocks] at hpb
    rw [hblocks, keysOf_cons]
    rcases List.mem_cons.mp hpb with rfl | hpb
    · refine Finset.mem_insert_of_mem (hex p ?_)
      simpa [candidateBlock] using hp
    · exact Finset.mem_insert_of_mem (hcl pb hpb p hp)
  · intro t ht
    rw [htips'] at ht
    rw [hblocks, keysOf_cons]
    rcases tipsInsert_mem_iff.mp ht with rfl | ht
    · exact Finset.mem_insert_self _ _
    · exact Finset.mem_insert_of_mem (htips t (updateTips_subset ps dag.tips t ht))
  · rw [htips']
    exact tipsInsert_nodup (updateTips_nodup ps dag.tips hnd)
  · rw [hnext, hblocks, keysOf_cons]
    simp only [Nat.add_sub_cancel]
    exact Finset.mem_insert_self _ _

theorem wf_stitch_at {dag : ToyDag} {th : Nat} {r : Option Nat} {d' : ToyDag}
    (hwf : WF dag) (h : dag.stitch_if_needed_at th = some (r, d')) : WF d' := by
  unfold ToyDag.stitch_if_needed_at at h
  by_cases hth : th < dag.tips.length
  · rw [if_pos hth] at h
    cases hcr : dag.create_block dag.tips with
    | none =>
      rw [hcr] at h
      exact Option.noConfusion h
    | some p =>
      obtain ⟨mid, d2⟩ := p
      rw [hcr] at h
      injection h with h
      rw [Prod.mk.injEq] at h
      obtain ⟨_, hd2⟩ := h
      subst hd2
      exact wf_create hwf hwf.2.2.1 hcr
  · rw [if_neg hth] at h
    injection h with h
    rw [Prod.mk.injEq] at h
    obtain ⟨_, hd⟩ := h
    subst hd
    exact hwf

/-! ### Claim theorems -/

/-- C1: for every well-formed DAG state and every insertBlock call with a
non-empty list of recorded parent ids, the anticone size computed for the
candidate (whose id is not yet recorded) is `0`, so the k-cluster test
classifies it Accepted (Blue) for every `k ≥ 0`, and the call succeeds
recording a Blue block. -/
theorem claim_C1_every_insert_accepted (dag : ToyDag) (hwf : WF dag)
    (ps : List Nat) (hne : ps ≠ []) (hex : ∀ p ∈ ps, p ∈ keysOf dag.blocks) :
    dag.anticone_size dag.next_id dag.selected_parent = 0 ∧
    (∀ k : Nat, (if dag.anticone_size dag.next_id dag.selected_parent ≤ k
        then Color.Blue else Color.Red) = Color.Blue) ∧
    ∃ d', dag.create_block ps = some (dag.next_id, d') ∧
      lookupBlock d'.blocks dag.next_id
        = some { id := dag.next_id, parents := ps, color := Color.Blue } := by
  obtain ⟨hlt, hcl, htips, hnd, hsp, hlast⟩ := hwf
  have hzero := anticone_size_next_id dag hlt hcl hsp
  have hblue := candidateColor_blue dag hlt hcl hsp
  refine ⟨hzero, ?_, ?_⟩
  · intro k
    rw [hzero, if_pos (Nat.zero_le _)]
  · obtain ⟨d', hd'⟩ := create_block_some dag ps htips hcl hne hex
    refine ⟨d', hd', ?_⟩
    obtain ⟨_, _, hblocks, _, _⟩ := create_block_step hd'
    rw [hblocks]
    simp [lookupBlock, candidateBlock, hblue]

theorem claim_C1_witness :
    ToyDag.new.anticone_size ToyDag.new.next_id ToyDag.new.selected_parent = 0 :=
  (claim_C1_every_insert_accepted ToyDag.new (by decide) [0] (by decide) (by decide)).1

/-- C2: the claim (insertion with an unknown parent fails with UnknownBlock
and leaves the state unchanged) is false of the code.  On a fresh DAG,
`create_block [5]` panics (the unchecked `self.blocks[&5]` index reached
through the selected-parent recomputation) — and it does so only after the
new block, with its dangling parent 5, was already recorded and the tip
set mutated, as the intermediate state shows. -/
theorem claim_C2_unknown_parent_panics :
    ToyDag.new.create_block [5] = none ∧
    (insertState ToyDag.new [5]).update_selected_parent = none ∧
    lookupBlock (insertState ToyDag.new [5]).blocks 1
      = some { id := 1, parents := [5], color := Color.Blue } ∧
    (insertState ToyDag.new [5]).tips = [1, 0] ∧
    (insertState ToyDag.new [5]).next_id = 2 := by
  decide

/-- C3: the tip eviction policy — each parent id is removed from the tip
set unless the tip set is exactly the singleton of that parent — and its
documented consequence: inserting a block whose only parent is the single
tip `t` leaves both `t` and the new id in the tip set. -/
theorem claim_C3_tip_policy :
    (∀ (tips : List Nat) (pid : Nat) (ps : List Nat),
        updateTips tips (pid :: ps)
          = updateTips (if tips = [pid] then tips else tips.erase pid) ps) ∧
    (∀ (dag : ToyDag) (t : Nat), WF dag → dag.tips = [t] →
      ∀ id d', dag.create_block [t] = some (id, d') →
        t ∈ d'.tips ∧ id ∈ d'.tips ∧ t ≠ id) := by
  refine ⟨updateTips_policy, ?_⟩
  intro dag t hwf htip id d' h
  obtain ⟨hid, hnext, hblocks, htips', hne⟩ := create_block_step h
  subst hid
  have ht_tip : t ∈ dag.tips := by
    rw [htip]
    exact List.mem_cons_self _ _
  have ht_in : t ∈ keysOf dag.blocks := hwf.2.2.1 t ht_tip
  have htlt : t < dag.next_id := by
    obtain ⟨b, hb⟩ := mem_keysOf.mp ht_in
    exact hwf.1 (t, b) hb
  have hne2 : t ≠ dag.next_id := Nat.ne_of_lt htlt
  have hkeep : updateTips dag.tips [t] = [t] := by
    rw [htip]
    simp [updateTips]
  refine ⟨?_, ?_, hne2⟩
  · rw [htips', hkeep]
    exact tipsInsert_mem_iff.mpr (Or.inr (List.mem_cons_self _ _))
  · rw [htips']
    exact tipsInsert_self _ _

theorem claim_C3_witness :
    updateTips [5] (7 :: []) = updateTips (if [5] = [7] then [5] else ([5] : List Nat).erase 7) [] ∧
    (0 ∈ D1val.tips ∧ 1 ∈ D1val.tips ∧ (0 : Nat) ≠ 1) :=
  ⟨claim_C3_tip_policy.1 [5] 7 [],
   claim_C3_tip_policy.2 ToyDag.new 0 (by decide) (by decide) 1 D1val (by decide)⟩

/-- C4: on every well-formed state, the selected-parent recomputation
succeeds without touching anything but the pointer; if some tip is
Accepted it picks an Accepted tip of maximal past-set cardinality, and if
no Accepted tip exists the state (hence the selected parent) is unchanged. -/
theorem claim_C4_selected_parent (dag : ToyDag) (hwf : WF dag) :
    ∃ d', dag.update_selected_parent = some d' ∧
      d'.blocks = dag.blocks ∧ d'.tips = dag.tips ∧ d'.next_id = dag.next_id ∧
      ((∃ t ∈ dag.tips, BlueTip dag t) →
        d'.selected_parent ∈ dag.tips ∧ BlueTip dag d'.selected_parent ∧
        ∃ s, dag.past_set d'.selected_parent = some s ∧
          ∀ t ∈ dag.tips, BlueTip dag t → ∀ s', dag.past_set t = some s' →
            s'.card ≤ s.card) ∧
      ((∀ t ∈ dag.tips, ¬ BlueTip dag t) → d' = dag) := by
  obtain ⟨d', h1, h2, h3, h4, h5, h6⟩ :=
    update_selected_parent_char dag hwf.2.2.1 hwf.2.1
  exact ⟨d', h1, h2, h3, h4, h6, h5⟩

theorem claim_C4_witness : ∃ d', ToyDag.new.update_selected_parent = some d' := by
  obtain ⟨d', h, _⟩ := claim_C4_selected_parent ToyDag.new (by decide)
  exact ⟨d', h⟩

/-- C5: on a well-formed state, `stitch_if_needed_at` is a no-op when the
tip count is at most the threshold; otherwise it performs exactly one
insertion whose parent list is the entire pre-call tip set, returns the
merge block id, and the merge block is a tip afterwards. -/
theorem claim_C5_stitch (dag : ToyDag) (threshold : Nat) (hwf : WF dag) :
    (dag.tips.length ≤ threshold →
      dag.stitch_if_needed_at threshold = some (none, dag)) ∧
    (threshold < dag.tips.length →
      ∃ id d', dag.stitch_if_needed_at threshold = some (some id, d') ∧
        dag.create_block dag.tips = some (id, d') ∧
        id = dag.next_id ∧
        (∃ b, lookupBlock d'.blocks id = some b ∧ b.parents = dag.tips) ∧
        id ∈ d'.tips ∧
        d'.blocks.length = dag.blocks.length + 1 ∧
        d'.next_id = dag.next_id + 1) := by
  constructor
  · intro hle
    unfold ToyDag.stitch_if_needed_at
    rw [if_neg (by omega)]
  · intro hgt
    have hne : dag.tips ≠ [] := by
      intro h0
      rw [h0] at hgt
      simp at hgt
    obtain ⟨d', hd'⟩ := create_block_some dag dag.tips hwf.2.2.1 hwf.2.1 hne hwf.2.2.1
    obtain ⟨_, hnext, hblocks, htips', _⟩ := create_block_step hd'
    refine ⟨dag.next_id, d', ?_, hd', rfl, ?_, ?_, ?_, hnext⟩
    · unfold ToyDag.stitch_if_needed_at
      rw [if_pos hgt, hd']
    · refine ⟨candidateBlock dag dag.tips, ?_, rfl⟩
      rw [hblocks]
      simp [lookupBlock]
    · rw [htips']
      exact tipsInsert_self _ _
    · rw [hblocks]
      simp

theorem claim_C5_witness :
    ∃ id d', ToyDag.new.stitch_if_needed_at 0 = some (some id, d') := by
  obtain ⟨id, d', h, _⟩ := (claim_C5_stitch ToyDag.new 0 (by decide)).2 (by decide)
  exact ⟨id, d', h⟩

/-- C6: the claim (both set queries fail with UnknownBlock on an absent id)
is false of the code: on a fresh DAG, `past_set 42` panics on the
unchecked index (it does not return a recoverable error), and
`future_set 42` does not fail at all — it silently returns `{42}`. -/
theorem claim_C6_absent_id_queries :
    ToyDag.new.past_set 42 = none ∧ ToyDag.new.future_set 42 = {42} := by
  decide

/-- C7: the claim (empty parent list fails with a recoverable
InvalidParents error, not a process abort) is false of the code: the
`assert!` panics, modelled by `none`, on every state. -/
theorem claim_C7_empty_parents : ∀ dag : ToyDag, dag.create_block [] = none :=
  fun _ => rfl

theorem claim_C7_witness : ToyDag.new.create_block [] = none :=
  claim_C7_empty_parents ToyDag.new

/-- C8: a successful insertion on a well-formed state returns exactly one
plus the largest previously allocated id, the new id is a tip afterwards,
and a tip survives any later successful insertion whose parent list does
not name it. -/
theorem claim_C8_fresh_id (dag : ToyDag) (hwf : WF dag) (ps : List Nat)
    (id : Nat) (d' : ToyDag) (h : dag.create_block ps = some (id, d')) :
    id = dag.next_id ∧
    (∀ k ∈ keysOf dag.blocks, k < id) ∧
    id - 1 ∈ keysOf dag.blocks ∧
    id ∈ d'.tips ∧
    (∀ (d2 : ToyDag) (t : Nat) (ps2 : List Nat) (id2 : Nat) (d3 : ToyDag),
      t ∈ d2.tips → t ∉ ps2 → d2.create_block ps2 = some (id2, d3) →
        t ∈ d3.tips) := by
  obtain ⟨hid, hnext, hblocks, htips', hne⟩ := create_block_step h
  subst hid
  refine ⟨rfl, ?_, hwf.2.2.2.2.2, ?_, ?_⟩
  · intro k hk
    obtain ⟨b, hb⟩ := mem_keysOf.mp hk
    exact hwf.1 (k, b) hb
  · rw [htips']
    exact tipsInsert_self _ _
  · intro d2 t ps2 id2 d3 ht hnot h2
    obtain ⟨_, _, _, htips3, _⟩ := create_block_step h2
    rw [htips3]
    exact tipsInsert_mem_iff.mpr (Or.inr (updateTips_keeps ps2 d2.tips t ht hnot))

theorem claim_C8_witness : (1 : Nat) = ToyDag.new.next_id ∧ 1 ∈ D1val.tips := by
  obtain ⟨h1, _, _, h4, _⟩ :=
    claim_C8_fresh_id ToyDag.new (by decide) [0] 1 D1val (by decide)
  exact ⟨h1, h4⟩

/-- C9: duality of the two closures on any state with closed parent links:
if `p` is a parent of the recorded block `c`, then `c` is in the future
set of `p` and `p` is in the (successfully computed) past set of `c`. -/
theorem claim_C9_duality (dag : ToyDag)
    (hcl : ∀ pb ∈ dag.blocks, ∀ p ∈ pb.2.parents, p ∈ keysOf dag.blocks)
    (c p : Nat) (bc : Block)
    (hc : lookupBlock dag.blocks c = some bc) (hp : p ∈ bc.parents) :
    c ∈ dag.future_set p ∧ ∃ r, dag.past_set c = some r ∧ p ∈ r := by
  constructor
  · exact future_set_closed dag p p (future_set_self dag p) (c, bc)
      (lookupBlock_mem hc) hp
  · obtain ⟨r, hr⟩ := past_set_some dag c hcl (mem_keys_of_lookup hc)
    exact ⟨r, hr, past_set_parents hr hc p hp⟩

theorem claim_C9_witness :
    (1 : Nat) ∈ D1val.future_set 0 ∧ ∃ r, D1val.past_set 1 = some r ∧ (0 : Nat) ∈ r :=
  claim_C9_duality D1val (by decide) 1 0
    { id := 1, parents := [0], color := Color.Blue } (by decide) (by decide)

/-- C10: the tip set is non-empty in every reachable state — it starts as
the genesis singleton and every successful insertion (including the merge
insertion of the stitcher) ends by inserting the new id into it. -/
theorem claim_C10_tips_nonempty : ∀ dag : ToyDag, Reachable dag → dag.tips ≠ [] := by
  intro dag h
  induction h with
  | base => simp [ToyDag.new]
  | step_insert hr hc ih =>
    obtain ⟨_, _, _, htips', _⟩ := create_block_step hc
    rw [htips']
    exact tipsInsert_ne_nil
  | step_stitch hr hc ih =>
    rename_i d r d'
    unfold ToyDag.stitch_if_needed ToyDag.stitch_if_needed_at at hc
    by_cases hth : STITCH_THRESHOLD < d.tips.length
    · rw [if_pos hth] at hc
      cases hcr : d.create_block d.tips with
      | none =>
        rw [hcr] at hc
        exact Option.noConfusion hc
      | some pq =>
        obtain ⟨mid, d2⟩ := pq
        rw [hcr] at hc
        injection hc with hc
        rw [Prod.mk.injEq] at hc
        obtain ⟨_, hd⟩ := hc
        subst hd
        obtain ⟨_, _, _, htips', _⟩ := create_block_step hcr
        rw [htips']
        exact tipsInsert_ne_nil
    · rw [if_neg hth] at hc
      injection hc with hc
      rw [Prod.mk.injEq] at hc
      obtain ⟨_, hd⟩ := hc
      subst hd
      exact ih

theorem claim_C10_witness : ToyDag.new.tips ≠ [] :=
  claim_C10_tips_nonempty ToyDag.new Reachable.base

end Toy
